import Mathlib

/-! # AVL tree of volatilities and its linear-scan baseline (`Source.cpp`)

A shallow embedding of the tree half of `Source.cpp` (`insertNode`, `balanceTree`,
`calcHeight`, `balanceFactor`, `leftRotate`, `rightRotate`, `searchTree`) and of the
"heap" baseline (`heapify`, `addStocksToHeap`, `searchHeap`).

Modelling decisions.

* `Node*` is a value of `Tree α`: `nil` is `NULL`, `node l k r` is a node whose
  `volatility` is `k`.  Every node has a single owner, so the part of the C++ heap
  reachable from a pointer is a tree value.
* The key type `α` is any linear order: `double` is read as a totally ordered type,
  which leaves NaN out.
* The rotations and `balanceTree` mutate nodes in place and return a pointer.  A caller
  that throws the returned pointer away still sees the mutation through the pointer it
  kept.  Each of these functions therefore returns a pair: `.1` is the tree at the
  returned pointer, `.2` is the tree now found at the pointer that was passed in.
* Dereferencing `NULL` is undefined behaviour; it is `none`.
* `void` functions that print are modelled by the list of what they print.
-/

namespace Src

/-- The `Node` class: `NULL`, or a node with a left subtree, a `volatility`, a right subtree. -/
inductive Tree (α : Type) where
  | nil : Tree α
  | node (left : Tree α) (volatility : α) (right : Tree α) : Tree α
  deriving DecidableEq, Repr

open Tree

variable {α : Type}

/-- The test `if (p)` on a pointer: true when `p` is not `NULL`. -/
def Tree.isNode : Tree α → Bool
  | nil => false
  | node _ _ _ => true

/-- `createNode(volatility)`: a fresh node with both children `NULL`. -/
def createNode (volatility : α) : Tree α :=
  node nil volatility nil

/-- `calcHeight(node)`: 0 for `NULL`, else one more than the taller child. -/
def calcHeight : Tree α → Nat
  | nil => 0
  | node l _ r => 1 + max (calcHeight l) (calcHeight r)

/-- `balanceFactor(node)`: 0 for `NULL`, else left height minus right height. -/
def balanceFactor : Tree α → Int
  | nil => 0
  | node l _ r => (calcHeight l : Int) - (calcHeight r : Int)

/-- `leftRotate(node)`: `newRoot = node->right; temp = newRoot->left;
`newRoot->left = node; node->right = temp; return newRoot`.
Both `node` and `node->right` are dereferenced.  `.1` is the tree at `newRoot`,
`.2` the tree at `node` after the call. -/
def leftRotate : Tree α → Option (Tree α × Tree α)
  | node a x (node b y c) => some (node (node a x b) y c, node a x b)
  | _ => none

/-- `rightRotate(node)`: `newRoot = node->left; temp = newRoot->right;
`newRoot->right = node; node->left = temp; return newRoot`.
`.1` is the tree at `newRoot`, `.2` the tree at `node` after the call. -/
def rightRotate : Tree α → Option (Tree α × Tree α)
  | node (node a x b) y c => some (node a x (node b y c), node b y c)
  | _ => none

/-- `balanceTree(root)`.  `.1` is the tree at the returned pointer, `.2` the tree at
`root` after the call.  In the two double-rotation branches the inner rotation's result
is stored in `root->left` (`root->right`) before the outer rotation runs.  In the
preorder walk the pointers returned by the recursive calls are discarded, so
`root->left` and `root->right` keep pointing at the nodes they pointed at, as those
nodes are after the recursive call. -/
def balanceTree : Tree α → Option (Tree α × Tree α)
  | nil => some (nil, nil)
  | node l x r =>
    if balanceFactor (node l x r) > 1 then
      if balanceFactor l > 0 then
        rightRotate (node l x r)
      else
        match leftRotate l with
        | none => none
        | some l' => rightRotate (node l'.1 x r)
    else if balanceFactor (node l x r) < -1 then
      if balanceFactor r < 0 then
        leftRotate (node l x r)
      else
        match rightRotate r with
        | none => none
        | some r' => leftRotate (node l x r'.1)
    else
      match (if l.isNode then (balanceTree l).map Prod.snd else some l) with
      | none => none
      | some l' =>
        match (if r.isNode then (balanceTree r).map Prod.snd else some r) with
        | none => none
        | some r' => some (node l' x r', node l' x r')

/-- The if-chain of `insertNode` at a node that has just been created for `NULL`:
both children are `NULL`, so only the last two tests can fire. -/
def insertFresh [LinearOrder α] (volatility : α) : Tree α :=
  if volatility < volatility then node (createNode volatility) volatility nil
  else if volatility > volatility then node nil volatility (createNode volatility)
  else createNode volatility

/-- `insertNode(root, volatility)`: the tree at the returned pointer. -/
def insertNode [LinearOrder α] : Tree α → α → Option (Tree α)
  | nil, v => some (insertFresh v)
  | node l x r, v =>
    if l.isNode ∧ v < x then
      match insertNode l v with
      | none => none
      | some l' => (balanceTree (node l' x r)).map Prod.fst
    else if r.isNode ∧ v > x then
      match insertNode r v with
      | none => none
      | some r' => (balanceTree (node l x r')).map Prod.fst
    else if v < x then some (node (createNode v) x r)
    else if v > x then some (node l x (createNode v))
    else some (node l x r)

/-- Successive `insertNode` calls from the empty tree, as in the build loop of `main`:
`root = NULL`, then `root = insertNode(root, key)` for each key in order.  (`main`
replaces a value beyond `1E10` in magnitude by `0.0` before the call; `ks` is the list
of keys after that step.) -/
def buildTree [LinearOrder α] (ks : List α) : Option (Tree α) :=
  ks.foldlM insertNode nil

/-- What a call of `searchTree` does that can be observed: it enters a node (a call on
a non-`NULL` root), prints a key (`cout << root->volatility`), or prints the text
`Tree is empty`. -/
inductive Event (α : Type) where
  | call (volatility : α) : Event α
  | printKey (volatility : α) : Event α
  | printEmpty : Event α
  deriving DecidableEq, Repr

/-- `searchTree(root, volatility)`: the events of the call, in order.  The three `if`s
on the key are sequential, not an else-chain; only the equality test returns early. -/
def searchTree [LinearOrder α] : Tree α → α → List (Event α)
  | nil, _ => [Event.printEmpty]
  | node l x r, v =>
    [Event.call x]
      ++ (if v < x ∧ l.isNode then searchTree l v else [])
      ++ (if v > x ∧ r.isNode then searchTree r v else [])
      ++ (if v = x then [Event.printKey x]
          else if ¬ l.isNode ∧ ¬ r.isNode then [Event.printEmpty]
          else [])

/-- The `HeapNode` class.  `addr` is the address of the object: `heapify` compares
`HeapNode*` values, not volatilities.  The `stock` pointer is never read and is left out. -/
structure HeapNode (α : Type) where
  addr : Nat
  volatility : α
  name : String
  date : String
  deriving DecidableEq, Repr

/-- How a run of the `heapify` loop can fail in the model. -/
inductive HeapError where
  | outOfBounds : HeapError
  | outOfFuel : HeapError
  deriving DecidableEq, Repr

/-- `nodes[i]` for an `int` index. -/
def vecGet (nodes : List (HeapNode α)) (i : Int) : Option (HeapNode α) :=
  if i < 0 then none else nodes[i.toNat]?

/-- The `while` loop of `heapify`, one iteration per unit of fuel.  `&&` short-circuits,
so the vector is read only when `parent >= 0`.  `/` is C++ `int` division, which
truncates toward zero. -/
def heapifyLoop : Nat → List (HeapNode α) → Int → Int → Except HeapError (List (HeapNode α))
  | 0, _, _, _ => Except.error HeapError.outOfFuel
  | fuel + 1, nodes, latestNode, parent =>
    if parent ≥ 0 then
      match vecGet nodes parent, vecGet nodes latestNode with
      | some p, some c =>
        if p.addr < c.addr then
          heapifyLoop fuel ((nodes.set parent.toNat c).set latestNode.toNat p)
            parent (Int.tdiv (parent - 1) 2)
        else Except.ok nodes
      | _, _ => Except.error HeapError.outOfBounds
    else Except.ok nodes

/-- `heapify(nodes)`: `latestNode = nodes.size() - 1`, `parent = (latestNode - 1) / 2`,
then the loop.  The fuel is one more than the length of the vector. -/
def heapify (nodes : List (HeapNode α)) : Except HeapError (List (HeapNode α)) :=
  heapifyLoop (nodes.length + 1) nodes ((nodes.length : Int) - 1)
    (Int.tdiv ((nodes.length : Int) - 1 - 1) 2)

/-- The `map<string, Stock*>` handed to `addStocksToHeap` and walked by `main`: the
tickers in map order, each with the entries of its `map` field (date, volatility) in
map order. -/
abbrev Stocks (α : Type) := List (String × List (String × α))

/-- The inner loop of `addStocksToHeap` for one ticker: allocate a node for each entry of
the ticker's map, push it, and replace the vector by `heapify` of it.  `alloc n` is the
address returned by the `n`-th `new HeapNode()`. -/
def addStockEntries (alloc : Nat → Nat) (name : String) :
    List (String × α) → List (HeapNode α) → Except HeapError (List (HeapNode α))
  | [], nodes => Except.ok nodes
  | (date, volatility) :: rest, nodes =>
    match heapify (nodes ++ [{ addr := alloc nodes.length, volatility := volatility,
                               name := name, date := date }]) with
    | Except.error e => Except.error e
    | Except.ok nodes' => addStockEntries alloc name rest nodes'

/-- The outer loop of `addStocksToHeap`, from a given vector. -/
def addStocksFrom (alloc : Nat → Nat) :
    Stocks α → List (HeapNode α) → Except HeapError (List (HeapNode α))
  | [], nodes => Except.ok nodes
  | (name, entries) :: rest, nodes =>
    match addStockEntries alloc name entries nodes with
    | Except.error e => Except.error e
    | Except.ok nodes' => addStocksFrom alloc rest nodes'

/-- `addStocksToHeap(stocks)`: the vector starts empty. -/
def addStocksToHeap (alloc : Nat → Nat) (stocks : Stocks α) :
    Except HeapError (List (HeapNode α)) :=
  addStocksFrom alloc stocks []

/-- `searchHeap(nodes, volatility)`: what is printed.  The scan returns at the first
entry whose volatility equals the argument, and prints nothing when there is none. -/
def searchHeap [DecidableEq α] : List (HeapNode α) → α → List α
  | [], _ => []
  | n :: rest, v => if n.volatility = v then [n.volatility] else searchHeap rest v

/-- The keys in the order in which both build loops meet them: tickers in map order,
and within a ticker its entries in map order. -/
def keyStream (stocks : Stocks α) : List α :=
  stocks.flatMap (fun s => s.2.map Prod.snd)

/-- The guard of the tree-build loop of `main`:
`if (j->second > 1E10 || j->second < -1E10) j->second = 0.0`. -/
def clampVolatility [LinearOrderedRing α] (v : α) : α :=
  if v > 10 ^ 10 ∨ v < -(10 ^ 10) then 0 else v

/-- The keys that the tree-build loop of `main` hands to `insertNode`, in order: every
entry of every ticker's map, after the guard.  The loop runs after `addStocksToHeap` has
returned, so the vector holds the values as they were before the guard. -/
def treeKeyStream [LinearOrderedRing α] (stocks : Stocks α) : List α :=
  stocks.flatMap (fun s => s.2.map (fun e => clampVolatility e.2))

/-- The `for` loop of the BUY branch of `main`.  An iterator is a position in the entries
of the ticker's map, `begin()` is position 0, and the loop runs while
`iter != map.begin()`; its body is `if (temp < iter->second) temp = iter->second`.
`none` is a dereference of `end()` or the end of the fuel. -/
def buyLoop [LinearOrder α] (entries : List (String × α)) : Nat → Nat → α → Option α
  | 0, _, _ => none
  | fuel + 1, iter, temp =>
    if iter ≠ 0 then
      match entries[iter]? with
      | none => none
      | some e => buyLoop entries fuel (iter + 1) (if temp < e.2 then e.2 else temp)
    else some temp

/-- The key that `main` searches for after `BUY`: `temp` starts as
`map.begin()->second`, then the loop runs from `iter = map.begin()`. -/
def buyTarget [LinearOrder α] (entries : List (String × α)) : Option α :=
  match entries[0]? with
  | none => none
  | some e => buyLoop entries (entries.length + 1) 0 e.2

/-- The `for` loop of the SELL branch of `main`: as `buyLoop`, with the body
`if (iter->second < temp) temp = iter->second`. -/
def sellLoop [LinearOrder α] (entries : List (String × α)) : Nat → Nat → α → Option α
  | 0, _, _ => none
  | fuel + 1, iter, temp =>
    if iter ≠ 0 then
      match entries[iter]? with
      | none => none
      | some e => sellLoop entries fuel (iter + 1) (if e.2 < temp then e.2 else temp)
    else some temp

/-- The key that `main` searches for after `SELL`. -/
def sellTarget [LinearOrder α] (entries : List (String × α)) : Option α :=
  match entries[0]? with
  | none => none
  | some e => sellLoop entries (entries.length + 1) 0 e.2

/-! ## Vocabulary of the properties -/

/-- The keys of a tree in in-order (left subtree, node, right subtree). -/
def keys : Tree α → List α
  | nil => []
  | node l x r => keys l ++ x :: keys r

/-- The number of nodes of a tree. -/
def size : Tree α → Nat
  | nil => 0
  | node l _ r => size l + 1 + size r

/-- Every node of a tree, as the subtree rooted there (preorder). -/
def nodes : Tree α → List (Tree α)
  | nil => []
  | node l x r => node l x r :: (nodes l ++ nodes r)

/-- The key and the `balanceFactor` of every node of a tree (preorder). -/
def balanceFactors : Tree α → List (α × Int)
  | nil => []
  | node l x r => (x, balanceFactor (node l x r)) :: (balanceFactors l ++ balanceFactors r)

/-- The balance condition at every node: the heights of the two children differ by at
most one. -/
def Balanced : Tree α → Prop
  | nil => True
  | node l _ r =>
    Balanced l ∧ Balanced r ∧
      -1 ≤ (calcHeight l : Int) - (calcHeight r : Int) ∧
      (calcHeight l : Int) - (calcHeight r : Int) ≤ 1

/-- The strict search-tree order at every node: the keys of the left subtree are below
the node's key and the keys of the right subtree are above it. -/
def Ordered [LinearOrder α] : Tree α → Prop
  | nil => True
  | node l x r =>
    Ordered l ∧ Ordered r ∧ (∀ y ∈ keys l, y < x) ∧ (∀ y ∈ keys r, x < y)

/-- Insertion into a search tree without any rebalancing; used only to describe the key
sequence that `insertNode` must produce. -/
def plainInsert [LinearOrder α] : Tree α → α → Tree α
  | nil, v => node nil v nil
  | node l x r, v =>
    if v < x then node (plainInsert l v) x r
    else if v > x then node l x (plainInsert r v)
    else node l x r

/-- The nodes entered by a run of `searchTree`, in order. -/
def visited : List (Event α) → List α
  | [] => []
  | Event.call x :: es => x :: visited es
  | _ :: es => visited es

/-- The keys printed by a run of `searchTree` (its reports of success), in order. -/
def printed : List (Event α) → List α
  | [] => []
  | Event.printKey x :: es => x :: printed es
  | _ :: es => printed es

/-- How many times a run of `searchTree` prints `Tree is empty`. -/
def emptyReports : List (Event α) → Nat
  | [] => 0
  | Event.printEmpty :: es => 1 + emptyReports es
  | _ :: es => emptyReports es

/-! ### The insertion that the specification describes

The definitions below follow the words of the specification (section 4.1), not the
source: single rotations, a rebalance that acts at one node only, and an insertion that
rebalances each ancestor on the way back. -/

/-- Specification, `rotateRight(node)`: the left child becomes the root of the subtree. -/
def specRotateRight : Tree α → Tree α
  | node (node a x b) y c => node a x (node b y c)
  | t => t

/-- Specification, `rotateLeft(node)`: the right child becomes the root of the subtree. -/
def specRotateLeft : Tree α → Tree α
  | node a x (node b y c) => node (node a x b) y c
  | t => t

/-- Specification, `rebalance(node)`: if the balance factor exceeds +1, a single right
rotation when the left child's balance factor is non-negative and a left-then-right
rotation otherwise; symmetric below -1; no recursion into the subtrees. -/
def specRebalance : Tree α → Tree α
  | nil => nil
  | node l x r =>
    if balanceFactor (node l x r) > 1 then
      if balanceFactor l ≥ 0 then specRotateRight (node l x r)
      else specRotateRight (node (specRotateLeft l) x r)
    else if balanceFactor (node l x r) < -1 then
      if balanceFactor r ≤ 0 then specRotateLeft (node l x r)
      else specRotateLeft (node l x (specRotateRight r))
    else node l x r

/-- Specification, `insert(root, key)`: walk down by search-tree order, discard a tie,
place the new node, and on the way back rebalance each ancestor. -/
def specInsert [LinearOrder α] : Tree α → α → Tree α
  | nil, v => node nil v nil
  | node l x r, v =>
    if v < x then specRebalance (node (specInsert l v) x r)
    else if v > x then specRebalance (node l x (specInsert r v))
    else node l x r

/-! ## Heights, balance and the rotations -/

theorem calcHeight_node (l : Tree α) (x : α) (r : Tree α) :
    calcHeight (node l x r) = 1 + max (calcHeight l) (calcHeight r) := rfl

theorem balanceFactor_node (l : Tree α) (x : α) (r : Tree α) :
    balanceFactor (node l x r) = (calcHeight l : Int) - (calcHeight r : Int) := rfl

theorem calcHeight_eq_zero {t : Tree α} (h : calcHeight t = 0) : t = nil := by
  cases t with
  | nil => rfl
  | node l x r => simp [calcHeight] at h

theorem size_eq_length_keys (t : Tree α) : size t = (keys t).length := by
  induction t with
  | nil => rfl
  | node l x r ihl ihr => simp [size, keys, ihl, ihr]; omega

/-- On a tree that is balanced at every node, `balanceTree` rotates nothing: it returns
its argument and leaves it as it was. -/
theorem balanceTree_of_balanced {t : Tree α} (h : Balanced t) :
    balanceTree t = some (t, t) := by
  induction t with
  | nil => rfl
  | node l x r ihl ihr =>
    obtain ⟨hl, hr, h1, h2⟩ := h
    have e1 : ¬ balanceFactor (node l x r) > 1 := by rw [balanceFactor_node]; omega
    have e2 : ¬ balanceFactor (node l x r) < -1 := by rw [balanceFactor_node]; omega
    rw [balanceTree, if_neg e1, if_neg e2, ihl hl, ihr hr]
    cases l <;> cases r <;> simp [Tree.isNode]

/-- A node that is two levels heavier on the left, with balanced children and a left
child that is not perfectly even, is repaired by `balanceTree` with one single or double
rotation: the result is balanced, has the same key sequence, and is as tall as the left
child was. -/
theorem balanceTree_heavy_left {l r : Tree α} (x : α) (hl : Balanced l) (hr : Balanced r)
    (h2 : (calcHeight l : Int) - (calcHeight r : Int) = 2) (h0 : balanceFactor l ≠ 0) :
    ∃ t u, balanceTree (node l x r) = some (t, u) ∧ Balanced t ∧
      keys t = keys l ++ x :: keys r ∧ calcHeight t = calcHeight l := by
  cases l with
  | nil => exfalso; simp only [calcHeight] at h2; omega
  | node a y b =>
    have e1 : balanceFactor (node (node a y b) x r) > 1 := by
      rw [balanceFactor_node]; omega
    obtain ⟨ha, hb, hab1, hab2⟩ := hl
    rw [balanceFactor_node] at h0
    rw [calcHeight_node] at h2
    by_cases hpos : balanceFactor (node a y b) > 0
    · refine ⟨node a y (node b x r), node b x r, ?_, ?_, ?_, ?_⟩
      · rw [balanceTree, if_pos e1, if_pos hpos]; rfl
      · rw [balanceFactor_node] at hpos
        simp only [Balanced, calcHeight_node]
        refine ⟨ha, ⟨hb, hr, ?_, ?_⟩, ?_, ?_⟩ <;> omega
      · simp [keys]
      · rw [balanceFactor_node] at hpos
        simp only [calcHeight_node]
        omega
    · rw [balanceFactor_node] at hpos
      cases b with
      | nil => exfalso; simp only [calcHeight] at hpos h0 hab1; omega
      | node b1 z b2 =>
        obtain ⟨hb1, hb2, hb12a, hb12b⟩ := hb
        rw [calcHeight_node] at hab1 hab2 h0 hpos h2
        refine ⟨node (node a y b1) z (node b2 x r), node b2 x r, ?_, ?_, ?_, ?_⟩
        · have hpos' : ¬ balanceFactor (node a y (node b1 z b2)) > 0 := by
            rw [balanceFactor_node, calcHeight_node]; exact hpos
          rw [balanceTree, if_pos e1, if_neg hpos']; rfl
        · simp only [Balanced, calcHeight_node]
          refine ⟨⟨ha, hb1, ?_, ?_⟩, ⟨hb2, hr, ?_, ?_⟩, ?_, ?_⟩ <;> omega
        · simp [keys]
        · simp only [calcHeight_node]
          omega

/-- The mirror image of `balanceTree_heavy_left`. -/
theorem balanceTree_heavy_right {l r : Tree α} (x : α) (hl : Balanced l) (hr : Balanced r)
    (h2 : (calcHeight l : Int) - (calcHeight r : Int) = -2) (h0 : balanceFactor r ≠ 0) :
    ∃ t u, balanceTree (node l x r) = some (t, u) ∧ Balanced t ∧
      keys t = keys l ++ x :: keys r ∧ calcHeight t = calcHeight r := by
  cases r with
  | nil => exfalso; simp only [calcHeight] at h2; omega
  | node a y b =>
    have e1 : ¬ balanceFactor (node l x (node a y b)) > 1 := by
      rw [balanceFactor_node]; omega
    have e2 : balanceFactor (node l x (node a y b)) < -1 := by
      rw [balanceFactor_node]; omega
    obtain ⟨ha, hb, hab1, hab2⟩ := hr
    rw [balanceFactor_node] at h0
    rw [calcHeight_node] at h2
    by_cases hneg : balanceFactor (node a y b) < 0
    · refine ⟨node (node l x a) y b, node l x a, ?_, ?_, ?_, ?_⟩
      · rw [balanceTree, if_neg e1, if_pos e2, if_pos hneg]; rfl
      · rw [balanceFactor_node] at hneg
        simp only [Balanced, calcHeight_node]
        refine ⟨⟨hl, ha, ?_, ?_⟩, hb, ?_, ?_⟩ <;> omega
      · simp [keys]
      · rw [balanceFactor_node] at hneg
        simp only [calcHeight_node]
        omega
    · rw [balanceFactor_node] at hneg
      cases a with
      | nil => exfalso; simp only [calcHeight] at hneg h0 hab2; omega
      | node a1 z a2 =>
        obtain ⟨ha1, ha2, ha12a, ha12b⟩ := ha
        rw [calcHeight_node] at hab1 hab2 h0 hneg h2
        refine ⟨node (node l x a1) z (node a2 y b), node l x a1, ?_, ?_, ?_, ?_⟩
        · have hneg' : ¬ balanceFactor (node (node a1 z a2) y b) < 0 := by
            rw [balanceFactor_node, calcHeight_node]; exact hneg
          rw [balanceTree, if_neg e1, if_pos e2, if_neg hneg']; rfl
        · simp only [Balanced, calcHeight_node]
          refine ⟨⟨hl, ha1, ?_, ?_⟩, ⟨ha2, hb, ?_, ?_⟩, ?_, ?_⟩ <;> omega
        · simp [keys]
        · simp only [calcHeight_node]
          omega

/-! ## Insertion -/

/-- What `insertNode` does at an ancestor after the recursive call on the left child:
`l` has become `l'`, at most one level taller, and `balanceTree` runs on the node. -/
theorem balance_after_left {l l' r : Tree α} (x : α) (hl' : Balanced l') (hr : Balanced r)
    (h1 : -1 ≤ (calcHeight l : Int) - (calcHeight r : Int))
    (h2 : (calcHeight l : Int) - (calcHeight r : Int) ≤ 1)
    (hg : calcHeight l' = calcHeight l ∨
      (calcHeight l' = calcHeight l + 1 ∧ (l = nil ∨ balanceFactor l' ≠ 0)))
    (hne : l ≠ nil) :
    ∃ t, (balanceTree (node l' x r)).map Prod.fst = some t ∧ Balanced t ∧
      keys t = keys l' ++ x :: keys r ∧
      (calcHeight t = calcHeight (node l x r) ∨
        (calcHeight t = calcHeight (node l x r) + 1 ∧ balanceFactor t ≠ 0)) := by
  by_cases hb : (calcHeight l' : Int) - (calcHeight r : Int) = 2
  · have h0 : balanceFactor l' ≠ 0 := by
      rcases hg with hg | ⟨_, hg | hg⟩
      · omega
      · exact absurd hg hne
      · exact hg
    obtain ⟨t, u, e, hbt, hk, hh⟩ := balanceTree_heavy_left x hl' hr hb h0
    refine ⟨t, by rw [e]; rfl, hbt, hk, Or.inl ?_⟩
    rw [calcHeight_node]; omega
  · have hbn : Balanced (node l' x r) := by
      refine ⟨hl', hr, ?_, ?_⟩ <;> omega
    refine ⟨node l' x r, by rw [balanceTree_of_balanced hbn]; rfl, hbn, rfl, ?_⟩
    simp only [calcHeight_node, balanceFactor_node]
    omega

/-- The mirror image of `balance_after_left`. -/
theorem balance_after_right {l r r' : Tree α} (x : α) (hl : Balanced l) (hr' : Balanced r')
    (h1 : -1 ≤ (calcHeight l : Int) - (calcHeight r : Int))
    (h2 : (calcHeight l : Int) - (calcHeight r : Int) ≤ 1)
    (hg : calcHeight r' = calcHeight r ∨
      (calcHeight r' = calcHeight r + 1 ∧ (r = nil ∨ balanceFactor r' ≠ 0)))
    (hne : r ≠ nil) :
    ∃ t, (balanceTree (node l x r')).map Prod.fst = some t ∧ Balanced t ∧
      keys t = keys l ++ x :: keys r' ∧
      (calcHeight t = calcHeight (node l x r) ∨
        (calcHeight t = calcHeight (node l x r) + 1 ∧ balanceFactor t ≠ 0)) := by
  by_cases hb : (calcHeight l : Int) - (calcHeight r' : Int) = -2
  · have h0 : balanceFactor r' ≠ 0 := by
      rcases hg with hg | ⟨_, hg | hg⟩
      · omega
      · exact absurd hg hne
      · exact hg
    obtain ⟨t, u, e, hbt, hk, hh⟩ := balanceTree_heavy_right x hl hr' hb h0
    refine ⟨t, by rw [e]; rfl, hbt, hk, Or.inl ?_⟩
    rw [calcHeight_node]; omega
  · have hbn : Balanced (node l x r') := by
      refine ⟨hl, hr', ?_, ?_⟩ <;> omega
    refine ⟨node l x r', by rw [balanceTree_of_balanced hbn]; rfl, hbn, rfl, ?_⟩
    simp only [calcHeight_node, balanceFactor_node]
    omega

theorem insertFresh_eq [LinearOrder α] (v : α) : insertFresh v = node nil v nil := by
  simp [insertFresh, createNode]

/-- The step of the insertion proof: on a balanced tree `insertNode` returns a balanced
tree whose key sequence is that of the plain search-tree insertion, and whose height is
the old one or one more; when the height grows the new root is not perfectly even,
unless the tree was empty. -/
theorem insertNode_spec [LinearOrder α] (t : Tree α) (v : α) (h : Balanced t) :
    ∃ t', insertNode t v = some t' ∧ Balanced t' ∧ keys t' = keys (plainInsert t v) ∧
      (calcHeight t' = calcHeight t ∨
        (calcHeight t' = calcHeight t + 1 ∧ (t = nil ∨ balanceFactor t' ≠ 0))) := by
  induction t with
  | nil =>
    refine ⟨node nil v nil, by rw [insertNode, insertFresh_eq], ?_, rfl, Or.inr ⟨rfl, Or.inl rfl⟩⟩
    simp [Balanced, calcHeight]
  | node l x r ihl ihr =>
    obtain ⟨hl, hr, h1, h2⟩ := h
    rcases lt_trichotomy v x with hvx | hvx | hvx
    · -- the key goes to the left
      cases hl0 : l with
      | nil =>
        subst hl0
        refine ⟨node (node nil v nil) x r, ?_, ?_, ?_, ?_⟩
        · simp [insertNode, Tree.isNode, hvx, not_lt_of_gt hvx, createNode]
        · simp only [Balanced, calcHeight] at *
          refine ⟨⟨trivial, trivial, ?_, ?_⟩, hr, ?_, ?_⟩ <;> omega
        · simp [plainInsert, hvx, keys]
        · simp only [calcHeight, balanceFactor] at *
          omega
      | node la lx lb =>
        obtain ⟨l', el, hbl', hkl, hgl⟩ := ihl hl
        rw [hl0] at el hkl hgl h1 h2
        have hne : node la lx lb ≠ nil := by simp
        obtain ⟨t, et, hbt, hkt, hgt⟩ := balance_after_left x hbl' hr h1 h2 hgl hne
        refine ⟨t, ?_, hbt, ?_, ?_⟩
        · rw [insertNode, if_pos ⟨rfl, hvx⟩, el]; exact et
        · rw [hkt, hkl]; simp [plainInsert, hvx, keys]
        · rcases hgt with hgt | ⟨hgt, hb⟩
          · exact Or.inl hgt
          · exact Or.inr ⟨hgt, Or.inr hb⟩
    · -- the key is the root's key
      subst hvx
      refine ⟨node l v r, ?_, ⟨hl, hr, h1, h2⟩, ?_, Or.inl rfl⟩
      · simp [insertNode]
      · simp [plainInsert]
    · -- the key goes to the right
      have hnl : ¬ v < x := not_lt_of_gt hvx
      cases hr0 : r with
      | nil =>
        subst hr0
        refine ⟨node l x (node nil v nil), ?_, ?_, ?_, ?_⟩
        · simp [insertNode, Tree.isNode, hvx, hnl, createNode]
        · simp only [Balanced, calcHeight] at *
          refine ⟨hl, ⟨trivial, trivial, ?_, ?_⟩, ?_, ?_⟩ <;> omega
        · simp [plainInsert, hvx, hnl, keys]
        · simp only [calcHeight, balanceFactor] at *
          omega
      | node ra rx rb =>
        obtain ⟨r', er, hbr', hkr, hgr⟩ := ihr hr
        rw [hr0] at er hkr hgr h1 h2
        have hne : node ra rx rb ≠ nil := by simp
        obtain ⟨t, et, hbt, hkt, hgt⟩ := balance_after_right x hl hbr' h1 h2 hgr hne
        refine ⟨t, ?_, hbt, ?_, ?_⟩
        · rw [insertNode, if_neg (fun h => hnl h.2), if_pos ⟨rfl, hvx⟩, er]; exact et
        · rw [hkt, hkr]; simp [plainInsert, hvx, hnl, keys]
        · rcases hgt with hgt | ⟨hgt, hb⟩
          · exact Or.inl hgt
          · exact Or.inr ⟨hgt, Or.inr hb⟩

/-! ## Keys and order -/

theorem mem_keys_plainInsert [LinearOrder α] (t : Tree α) (v y : α) :
    y ∈ keys (plainInsert t v) ↔ y ∈ keys t ∨ y = v := by
  induction t with
  | nil => simp [plainInsert, keys]
  | node l x r ihl ihr =>
    rw [plainInsert]
    split_ifs with h1 h2
    · simp only [keys, List.mem_append, List.mem_cons, ihl]; tauto
    · simp only [keys, List.mem_append, List.mem_cons, ihr]; tauto
    · have hvx : v = x := le_antisymm (not_lt.mp h2) (not_lt.mp h1)
      subst hvx
      simp only [keys, List.mem_append, List.mem_cons]; tauto

theorem ordered_plainInsert [LinearOrder α] (t : Tree α) (v : α) (h : Ordered t) :
    Ordered (plainInsert t v) := by
  induction t with
  | nil => simp [plainInsert, Ordered, keys]
  | node l x r ihl ihr =>
    obtain ⟨hl, hr, hlx, hrx⟩ := h
    rw [plainInsert]
    split_ifs with h1 h2
    · refine ⟨ihl hl, hr, ?_, hrx⟩
      intro y hy
      rcases (mem_keys_plainInsert l v y).mp hy with hy | hy
      · exact hlx y hy
      · rw [hy]; exact h1
    · refine ⟨hl, ihr hr, hlx, ?_⟩
      intro y hy
      rcases (mem_keys_plainInsert r v y).mp hy with hy | hy
      · exact hrx y hy
      · rw [hy]; exact h2
    · exact ⟨hl, hr, hlx, hrx⟩

theorem plainInsert_of_mem [LinearOrder α] (t : Tree α) (v : α) (h : Ordered t)
    (hv : v ∈ keys t) : plainInsert t v = t := by
  induction t with
  | nil => simp [keys] at hv
  | node l x r ihl ihr =>
    obtain ⟨hl, hr, hlx, hrx⟩ := h
    rw [plainInsert]
    simp only [keys, List.mem_append, List.mem_cons] at hv
    split_ifs with h1 h2
    · rcases hv with hv | hv | hv
      · rw [ihl hl hv]
      · exact absurd h1 (by rw [hv]; exact lt_irrefl x)
      · exact absurd h1 (not_lt_of_gt (hrx v hv))
    · rcases hv with hv | hv | hv
      · exact absurd h2 (not_lt_of_gt (hlx v hv))
      · exact absurd h2 (by rw [hv]; exact lt_irrefl x)
      · rw [ihr hr hv]
    · rfl

theorem length_keys_plainInsert [LinearOrder α] (t : Tree α) (v : α) (hv : v ∉ keys t) :
    (keys (plainInsert t v)).length = (keys t).length + 1 := by
  induction t with
  | nil => simp [plainInsert, keys]
  | node l x r ihl ihr =>
    simp only [keys, List.mem_append, List.mem_cons, not_or] at hv
    obtain ⟨hvl, hvx, hvr⟩ := hv
    rw [plainInsert]
    split_ifs with h1 h2
    · simp only [keys, List.length_append, List.length_cons, ihl hvl]; omega
    · simp only [keys, List.length_append, List.length_cons, ihr hvr]; omega
    · exact absurd (le_antisymm (not_lt.mp h2) (not_lt.mp h1)) hvx

/-- The order condition at every node says the same as: the in-order key sequence is
strictly ascending. -/
theorem ordered_iff_pairwise [LinearOrder α] (t : Tree α) :
    Ordered t ↔ (keys t).Pairwise (· < ·) := by
  induction t with
  | nil => simp [Ordered, keys]
  | node l x r ihl ihr =>
    simp only [Ordered, keys, List.pairwise_append, List.pairwise_cons, List.mem_cons, ihl, ihr]
    constructor
    · rintro ⟨hl, hr, hlx, hrx⟩
      refine ⟨hl, ⟨hrx, hr⟩, ?_⟩
      intro a ha b hb
      rcases hb with hb | hb
      · rw [hb]; exact hlx a ha
      · exact lt_trans (hlx a ha) (hrx b hb)
    · rintro ⟨hl, ⟨hrx, hr⟩, h⟩
      exact ⟨hl, hr, fun y hy => h y hy x (Or.inl rfl), hrx⟩

/-- Inserting a key that a balanced, ordered tree already stores returns the tree
unchanged: the walk reaches the node with that key, where no branch of the if-chain
fires, and `balanceTree` at each ancestor finds nothing to rotate. -/
theorem insertNode_of_mem [LinearOrder α] (t : Tree α) (v : α) (hb : Balanced t)
    (ho : Ordered t) (hv : v ∈ keys t) : insertNode t v = some t := by
  induction t with
  | nil => simp [keys] at hv
  | node l x r ihl ihr =>
    obtain ⟨hl, hr, hlx, hrx⟩ := ho
    have hb' := hb
    obtain ⟨hbl, hbr, _, _⟩ := hb'
    simp only [keys, List.mem_append, List.mem_cons] at hv
    rcases hv with hv | hv | hv
    · have h1 : v < x := hlx v hv
      have hn : l.isNode = true := by cases l with
        | nil => simp [keys] at hv
        | node _ _ _ => rfl
      rw [insertNode, if_pos ⟨hn, h1⟩, ihl hbl hl hv]
      show (balanceTree (node l x r)).map Prod.fst = _
      rw [balanceTree_of_balanced hb]; rfl
    · subst hv
      simp [insertNode]
    · have h1 : x < v := hrx v hv
      have hn : r.isNode = true := by cases r with
        | nil => simp [keys] at hv
        | node _ _ _ => rfl
      rw [insertNode, if_neg (fun h => not_lt_of_gt h1 h.2), if_pos ⟨hn, h1⟩, ihr hbr hr hv]
      show (balanceTree (node l x r)).map Prod.fst = _
      rw [balanceTree_of_balanced hb]; rfl

/-- Everything the claims need about one call of `insertNode` on a balanced, ordered
tree. -/
theorem insertNode_full [LinearOrder α] (t : Tree α) (v : α) (hb : Balanced t)
    (ho : Ordered t) :
    ∃ t', insertNode t v = some t' ∧ Balanced t' ∧ Ordered t' ∧
      (∀ y, y ∈ keys t' ↔ y ∈ keys t ∨ y = v) ∧
      (v ∉ keys t → size t' = size t + 1) ∧ (v ∈ keys t → t' = t) := by
  obtain ⟨t', e, hb', hk, _⟩ := insertNode_spec t v hb
  refine ⟨t', e, hb', ?_, ?_, ?_, ?_⟩
  · rw [ordered_iff_pairwise, hk, ← ordered_iff_pairwise]
    exact ordered_plainInsert t v ho
  · intro y; rw [hk]; exact mem_keys_plainInsert t v y
  · intro hv
    rw [size_eq_length_keys, size_eq_length_keys, hk]
    exact length_keys_plainInsert t v hv
  · intro hv
    have := insertNode_of_mem t v hb ho hv
    rw [e] at this
    exact Option.some.inj this

/-- The trees built by `buildTree`, from any balanced, ordered start. -/
theorem foldlM_insertNode [LinearOrder α] (ks : List α) (t0 : Tree α) (hb : Balanced t0)
    (ho : Ordered t0) :
    ∃ t, ks.foldlM insertNode t0 = some t ∧ Balanced t ∧ Ordered t ∧
      (∀ y, y ∈ keys t ↔ y ∈ keys t0 ∨ y ∈ ks) := by
  induction ks generalizing t0 with
  | nil => exact ⟨t0, rfl, hb, ho, by simp⟩
  | cons k ks ih =>
    obtain ⟨t1, e1, hb1, ho1, hk1, _, _⟩ := insertNode_full t0 k hb ho
    obtain ⟨t, e, hbt, hot, hkt⟩ := ih t1 hb1 ho1
    refine ⟨t, ?_, hbt, hot, ?_⟩
    · rw [List.foldlM_cons, e1]; exact e
    · intro y; rw [hkt, hk1, List.mem_cons]; tauto

/-- Every key list builds a tree, and the tree is balanced, ordered, and stores exactly
the keys of the list. -/
theorem buildTree_spec [LinearOrder α] (ks : List α) :
    ∃ t, buildTree ks = some t ∧ Balanced t ∧ Ordered t ∧ (∀ y, y ∈ keys t ↔ y ∈ ks) := by
  obtain ⟨t, e, hb, ho, hk⟩ := foldlM_insertNode ks nil trivial trivial
  exact ⟨t, e, hb, ho, fun y => by rw [hk]; simp [keys]⟩

/-! ## Search -/

theorem searchTree_lt [LinearOrder α] (l : Tree α) (x : α) (r : Tree α) (v : α) (h : v < x) :
    searchTree (node l x r) v =
      Event.call x :: (if l.isNode then searchTree l v
        else if r.isNode then [] else [Event.printEmpty]) := by
  cases l <;> cases r <;> simp [searchTree, Tree.isNode, h, not_lt_of_gt h, ne_of_lt h]

theorem searchTree_gt [LinearOrder α] (l : Tree α) (x : α) (r : Tree α) (v : α) (h : x < v) :
    searchTree (node l x r) v =
      Event.call x :: (if r.isNode then searchTree r v
        else if l.isNode then [] else [Event.printEmpty]) := by
  cases l <;> cases r <;> simp [searchTree, Tree.isNode, h, not_lt_of_gt h, ne_of_gt h]

theorem searchTree_eq [LinearOrder α] (l : Tree α) (x : α) (r : Tree α) :
    searchTree (node l x r) x = [Event.call x, Event.printKey x] := by
  simp [searchTree]

/-- On an ordered tree a search prints the key once when the key is stored, and prints
no key when it is not. -/
theorem printed_searchTree [LinearOrder α] (t : Tree α) (v : α) (ho : Ordered t) :
    printed (searchTree t v) = if v ∈ keys t then [v] else [] := by
  induction t with
  | nil => simp [searchTree, printed, keys]
  | node l x r ihl ihr =>
    obtain ⟨hl, hr, hlx, hrx⟩ := ho
    rcases lt_trichotomy v x with h | h | h
    · have hmem : v ∈ keys (node l x r) ↔ v ∈ keys l := by
        simp only [keys, List.mem_append, List.mem_cons]
        constructor
        · rintro (h1 | h1 | h1)
          · exact h1
          · exact absurd h1 (ne_of_lt h)
          · exact absurd (hrx v h1) (not_lt_of_gt h)
        · exact fun h1 => Or.inl h1
      rw [searchTree_lt l x r v h]
      simp only [printed, hmem]
      cases l with
      | nil => cases r <;> simp [Tree.isNode, printed, keys]
      | node a y b => simpa [Tree.isNode] using ihl hl
    · subst h
      rw [searchTree_eq]
      simp [printed, keys]
    · have hmem : v ∈ keys (node l x r) ↔ v ∈ keys r := by
        simp only [keys, List.mem_append, List.mem_cons]
        constructor
        · rintro (h1 | h1 | h1)
          · exact absurd (hlx v h1) (not_lt_of_gt h)
          · exact absurd h1 (ne_of_gt h)
          · exact h1
        · exact fun h1 => Or.inr (Or.inr h1)
      rw [searchTree_gt l x r v h]
      simp only [printed, hmem]
      cases r with
      | nil => cases l <;> simp [Tree.isNode, printed, keys]
      | node a y b => simpa [Tree.isNode] using ihr hr

theorem visited_call (x : α) (es : List (Event α)) :
    visited (Event.call x :: es) = x :: visited es := rfl

/-- A search enters at most as many nodes as the tree is high. -/
theorem visited_searchTree_le [LinearOrder α] (t : Tree α) (v : α) :
    (visited (searchTree t v)).length ≤ calcHeight t := by
  induction t with
  | nil => simp [searchTree, visited]
  | node l x r ihl ihr =>
    rcases lt_trichotomy v x with h | h | h
    · rw [searchTree_lt l x r v h, calcHeight_node]
      cases l with
      | nil => cases r <;> simp [Tree.isNode, visited]
      | node a y b =>
        show (visited (Event.call x :: searchTree (node a y b) v)).length ≤ _
        rw [visited_call, List.length_cons]
        omega
    · subst h
      rw [searchTree_eq, calcHeight_node]
      simp [visited]
    · rw [searchTree_gt l x r v h, calcHeight_node]
      cases r with
      | nil => cases l <;> simp [Tree.isNode, visited]
      | node a y b =>
        show (visited (Event.call x :: searchTree (node a y b) v)).length ≤ _
        rw [visited_call, List.length_cons]
        omega

/-! ## The height of a balanced tree -/

theorem sq_bound_even (P a b : Nat) (ha : P ≤ a ^ 2) (hb : P ≤ b ^ 2) :
    2 * P ≤ (a + b) ^ 2 := by
  nlinarith [Nat.zero_le (a * b)]

theorem sq_bound_skew (P a b : Nat) (ha : 2 * P ≤ a ^ 2) (hb : P ≤ b ^ 2) :
    4 * P ≤ (a + b) ^ 2 := by
  have hab : P ≤ a * b := by
    by_contra h
    push_neg at h
    have h1 : a * b * (a * b) < P * P := Nat.mul_self_lt_mul_self h
    have h2 : 2 * P * P ≤ a ^ 2 * b ^ 2 := Nat.mul_le_mul ha hb
    nlinarith
  nlinarith

/-- A tree balanced at every node with `n` nodes and height `h` has `2 ^ h ≤ (n + 1) ^ 2`. -/
theorem balanced_height_bound (t : Tree α) (hb : Balanced t) :
    2 ^ calcHeight t ≤ (size t + 1) ^ 2 := by
  induction t with
  | nil => simp [calcHeight, size]
  | node l x r ihl ihr =>
    obtain ⟨hl, hr, h1, h2⟩ := hb
    have il := ihl hl
    have ir := ihr hr
    rw [calcHeight_node, size]
    have hsz : size l + 1 + size r + 1 = (size l + 1) + (size r + 1) := by ring
    rw [hsz]
    rcases Nat.lt_trichotomy (calcHeight l) (calcHeight r) with hc | hc | hc
    · have e : calcHeight r = calcHeight l + 1 := by omega
      rw [e] at ir ⊢
      rw [max_eq_right (Nat.le_succ _)]
      have hP : (2 : Nat) ^ (1 + (calcHeight l + 1)) = 4 * 2 ^ calcHeight l := by ring
      rw [hP, Nat.add_comm (size l + 1)]
      exact sq_bound_skew _ _ _ (by rw [pow_succ] at ir; omega) il
    · rw [hc] at il ⊢
      rw [max_self]
      have hP : (2 : Nat) ^ (1 + calcHeight r) = 2 * 2 ^ calcHeight r := by ring
      rw [hP]
      exact sq_bound_even _ _ _ il ir
    · have e : calcHeight l = calcHeight r + 1 := by omega
      rw [e] at il ⊢
      rw [max_eq_left (Nat.le_succ _)]
      have hP : (2 : Nat) ^ (1 + (calcHeight r + 1)) = 4 * 2 ^ calcHeight r := by ring
      rw [hP]
      exact sq_bound_skew _ _ _ (by rw [pow_succ] at il; omega) ir

/-- The same bound with a logarithm: `h ≤ 2 * log₂ (n + 1)`. -/
theorem le_two_logb_of_pow_le (h n : Nat) (hb : 2 ^ h ≤ (n + 1) ^ 2) :
    (h : ℝ) ≤ 2 * Real.logb 2 ((n : ℝ) + 1) := by
  have h2 : (1 : ℝ) < 2 := by norm_num
  have hR : (2 : ℝ) ^ h ≤ ((n : ℝ) + 1) ^ 2 := by exact_mod_cast hb
  have hpos : (0 : ℝ) < (2 : ℝ) ^ h := by positivity
  have hpos2 : (0 : ℝ) < ((n : ℝ) + 1) ^ 2 := by positivity
  have := (Real.logb_le_logb h2 hpos hpos2).mpr hR
  rw [Real.logb_pow, Real.logb_pow, Real.logb_self_eq_one h2] at this
  simpa using this

/-! ## The baseline vector -/

theorem perm_cons_set {β : Type} (xs : List β) (j : Nat) (x b : β) (hj : xs[j]? = some b) :
    (b :: xs.set j x).Perm (x :: xs) := by
  induction xs generalizing j with
  | nil => simp at hj
  | cons y ys ih =>
    cases j with
    | zero =>
      simp only [List.getElem?_cons_zero, Option.some.injEq] at hj
      subst hj
      simpa using List.Perm.swap x y ys
    | succ j =>
      simp only [List.getElem?_cons_succ] at hj
      simp only [List.set_cons_succ]
      exact (List.Perm.swap y b _).trans (((ih j hj).cons y).trans (List.Perm.swap x y ys))

/-- Exchanging the entries at two positions of a list permutes it. -/
theorem perm_set_swap {β : Type} (l : List β) (i j : Nat) (a b : β) (hi : l[i]? = some a)
    (hj : l[j]? = some b) : ((l.set i b).set j a).Perm l := by
  induction l generalizing i j with
  | nil => simp at hi
  | cons x xs ih =>
    cases i with
    | zero =>
      simp only [List.getElem?_cons_zero, Option.some.injEq] at hi
      subst hi
      cases j with
      | zero =>
        simp only [List.getElem?_cons_zero, Option.some.injEq] at hj
        simp
      | succ j =>
        simp only [List.getElem?_cons_succ] at hj
        simp only [List.set_cons_zero, List.set_cons_succ]
        exact perm_cons_set xs j x b hj
    | succ i =>
      simp only [List.getElem?_cons_succ] at hi
      cases j with
      | zero =>
        simp only [List.getElem?_cons_zero, Option.some.injEq] at hj
        subst hj
        simp only [List.set_cons_zero, List.set_cons_succ]
        exact perm_cons_set xs i x a hi
      | succ j =>
        simp only [List.getElem?_cons_succ] at hj
        simp only [List.set_cons_succ]
        exact (ih i j hi hj).cons x

/-- The `int` expression `(latestNode - 1) / 2` for a non-negative `latestNode`: the
natural-number quotient, which is `0` also for `latestNode = 0`. -/
theorem parent_index (latest : Nat) :
    Int.tdiv ((latest : Int) - 1) 2 = (((latest - 1) / 2 : Nat) : Int) := by
  cases latest with
  | zero => decide
  | succ n =>
    have e : (((n + 1 : Nat) : Int) - 1) = (n : Int) := by push_cast; ring
    rw [e, Int.tdiv_eq_ediv (Int.ofNat_nonneg n) (by decide)]
    simp

theorem vecGet_natCast (nodes : List (HeapNode α)) (i : Nat) :
    vecGet nodes (i : Int) = nodes[i]? := by
  simp [vecGet]

/-- The loop of `heapify`, started at a valid index with its parent and with more fuel
than the index, stops, stays within the vector, and returns a permutation of it. -/
theorem heapifyLoop_spec (fuel : Nat) (nodes : List (HeapNode α)) (latest : Nat)
    (h1 : latest < nodes.length) (hf : latest < fuel) :
    ∃ out, heapifyLoop fuel nodes (latest : Int) (Int.tdiv ((latest : Int) - 1) 2)
        = Except.ok out ∧ out.Perm nodes := by
  induction fuel generalizing nodes latest with
  | zero => omega
  | succ fuel ih =>
    rw [parent_index]
    have hp : (latest - 1) / 2 < nodes.length := by omega
    have hnn : ((((latest - 1) / 2 : Nat) : Int)) ≥ 0 := Int.ofNat_nonneg _
    rw [heapifyLoop, if_pos hnn, vecGet_natCast, vecGet_natCast,
      List.getElem?_eq_getElem hp, List.getElem?_eq_getElem h1]
    simp only [Int.toNat_ofNat]
    by_cases hlt : (nodes[(latest - 1) / 2]).addr < (nodes[latest]).addr
    · rw [if_pos hlt]
      have hne : (latest - 1) / 2 ≠ latest := by
        intro e
        have : nodes[(latest - 1) / 2] = nodes[latest] := by congr
        rw [this] at hlt
        exact lt_irrefl _ hlt
      have hlen : (latest - 1) / 2 <
          ((nodes.set ((latest - 1) / 2) nodes[latest]).set latest
            nodes[(latest - 1) / 2]).length := by
        simpa using hp
      obtain ⟨out, e, hperm⟩ := ih _ ((latest - 1) / 2) hlen (by omega)
      refine ⟨out, e, hperm.trans ?_⟩
      exact perm_set_swap nodes _ _ _ _ (List.getElem?_eq_getElem hp)
        (List.getElem?_eq_getElem h1)
    · rw [if_neg hlt]
      exact ⟨nodes, rfl, List.Perm.refl _⟩

/-- A call of `heapify` on a non-empty vector returns a permutation of the vector. -/
theorem heapify_spec (nodes : List (HeapNode α)) (hne : nodes ≠ []) :
    ∃ out, heapify nodes = Except.ok out ∧ out.Perm nodes := by
  have hpos : 0 < nodes.length := List.length_pos.mpr hne
  have e : ((nodes.length : Int) - 1) = ((nodes.length - 1 : Nat) : Int) := by omega
  have := heapifyLoop_spec (nodes.length + 1) nodes (nodes.length - 1) (by omega) (by omega)
  rw [heapify, e]
  exact this

theorem addStockEntries_spec (alloc : Nat → Nat) (name : String) (entries : List (String × α))
    (nodes : List (HeapNode α)) :
    ∃ out, addStockEntries alloc name entries nodes = Except.ok out ∧
      (out.map HeapNode.volatility).Perm
        (nodes.map HeapNode.volatility ++ entries.map Prod.snd) := by
  induction entries generalizing nodes with
  | nil => exact ⟨nodes, rfl, by simp⟩
  | cons e rest ih =>
    obtain ⟨date, volatility⟩ := e
    obtain ⟨n1, e1, hp1⟩ := heapify_spec
      (nodes ++ [{ addr := alloc nodes.length, volatility := volatility,
                   name := name, date := date }]) (by simp)
    obtain ⟨out, e2, hp2⟩ := ih n1
    refine ⟨out, ?_, ?_⟩
    · rw [addStockEntries, e1]; exact e2
    · refine hp2.trans ?_
      have := (hp1.map HeapNode.volatility).append_right (rest.map Prod.snd)
      simpa using this

theorem addStocksFrom_spec (alloc : Nat → Nat) (stocks : Stocks α) (nodes : List (HeapNode α)) :
    ∃ out, addStocksFrom alloc stocks nodes = Except.ok out ∧
      (out.map HeapNode.volatility).Perm (nodes.map HeapNode.volatility ++ keyStream stocks) := by
  induction stocks generalizing nodes with
  | nil => exact ⟨nodes, rfl, by simp [keyStream]⟩
  | cons s rest ih =>
    obtain ⟨name, entries⟩ := s
    obtain ⟨n1, e1, hp1⟩ := addStockEntries_spec alloc name entries nodes
    obtain ⟨out, e2, hp2⟩ := ih n1
    refine ⟨out, ?_, ?_⟩
    · rw [addStocksFrom, e1]; exact e2
    · refine hp2.trans ?_
      have := hp1.append_right (keyStream rest)
      simpa [keyStream] using this

/-- The vector built by `addStocksToHeap` holds the volatilities of the key stream, each
as often as the stream has it. -/
theorem addStocksToHeap_spec (alloc : Nat → Nat) (stocks : Stocks α) :
    ∃ out, addStocksToHeap alloc stocks = Except.ok out ∧
      (out.map HeapNode.volatility).Perm (keyStream stocks) := by
  simpa [addStocksToHeap] using addStocksFrom_spec alloc stocks []

/-- The scan prints the key once when some entry has it, and nothing otherwise. -/
theorem searchHeap_spec [DecidableEq α] (nodes : List (HeapNode α)) (v : α) :
    searchHeap nodes v = if v ∈ nodes.map HeapNode.volatility then [v] else [] := by
  induction nodes with
  | nil => simp [searchHeap]
  | cons n rest ih =>
    rw [searchHeap]
    by_cases h : n.volatility = v
    · simp [h]
    · have h' : ¬ v = n.volatility := fun e => h e.symm
      simp [h, h', ih]

/-! ## Reachable trees -/

theorem buildTree_props [LinearOrder α] {ks : List α} {t : Tree α} (h : buildTree ks = some t) :
    Balanced t ∧ Ordered t ∧ (∀ y, y ∈ keys t ↔ y ∈ ks) := by
  obtain ⟨t0, e, hb, ho, hk⟩ := buildTree_spec ks
  rw [e] at h
  cases h
  exact ⟨hb, ho, hk⟩

theorem balanced_nodes {t : Tree α} (hb : Balanced t) (l : Tree α) (x : α) (r : Tree α)
    (hn : node l x r ∈ nodes t) :
    -1 ≤ (calcHeight l : Int) - (calcHeight r : Int) ∧
      (calcHeight l : Int) - (calcHeight r : Int) ≤ 1 := by
  induction t with
  | nil => simp [nodes] at hn
  | node a y b iha ihb =>
    obtain ⟨ha, hb', h1, h2⟩ := hb
    simp only [nodes, List.mem_cons, List.mem_append] at hn
    rcases hn with hn | hn | hn
    · cases hn; exact ⟨h1, h2⟩
    · exact iha ha hn
    · exact ihb hb' hn

theorem ordered_nodes [LinearOrder α] {t : Tree α} (ho : Ordered t) (l : Tree α) (x : α)
    (r : Tree α) (hn : node l x r ∈ nodes t) :
    (∀ y ∈ keys l, y < x) ∧ (∀ y ∈ keys r, x < y) := by
  induction t with
  | nil => simp [nodes] at hn
  | node a y b iha ihb =>
    obtain ⟨ha, hb, h1, h2⟩ := ho
    simp only [nodes, List.mem_cons, List.mem_append] at hn
    rcases hn with hn | hn | hn
    · cases hn; exact ⟨h1, h2⟩
    · exact iha ha hn
    · exact ihb hb hn

/-! ## Properties of the specification -/

/-- C1 (balance invariant).  Every finite list of keys, inserted in order with `insertNode`
starting from the empty tree, yields a tree, and at every node of that tree
`calcHeight(left) - calcHeight(right)` is -1, 0 or 1. -/
theorem C1_insert_balance_invariant [LinearOrder α] (ks : List α) :
    ∃ t, buildTree ks = some t ∧
      ∀ l x r, node l x r ∈ nodes t →
        (calcHeight l : Int) - (calcHeight r : Int) = -1 ∨
        (calcHeight l : Int) - (calcHeight r : Int) = 0 ∨
        (calcHeight l : Int) - (calcHeight r : Int) = 1 := by
  obtain ⟨t, e, hb, _, _⟩ := buildTree_spec ks
  refine ⟨t, e, fun l x r hn => ?_⟩
  have := balanced_nodes hb l x r hn
  omega

/-- C2 (order invariant).  Every finite list of keys, inserted in order with `insertNode`
starting from the empty tree, yields a tree whose in-order traversal is strictly
ascending; at every node the keys of the left subtree are below the node's key and the
keys of the right subtree above it; the traversal has no duplicate. -/
theorem C2_insert_order_invariant [LinearOrder α] (ks : List α) :
    ∃ t, buildTree ks = some t ∧ (keys t).Pairwise (· < ·) ∧
      (∀ l x r, node l x r ∈ nodes t → (∀ y ∈ keys l, y < x) ∧ (∀ y ∈ keys r, x < y)) ∧
      (keys t).Nodup := by
  obtain ⟨t, e, _, ho, _⟩ := buildTree_spec ks
  have hp := (ordered_iff_pairwise t).mp ho
  exact ⟨t, e, hp, fun l x r hn => ordered_nodes ho l x r hn, hp.imp ne_of_lt⟩

/-- C3 (insertion neither loses nor invents keys).  For a tree `t` built by successive
`insertNode` calls from the empty tree and any key `k`, `insertNode t k` returns a tree
whose keys are exactly those of `t` together with `k`; the node count grows by exactly
one when `k` was absent, and stays when `k` was present. -/
theorem C3_insert_keys [LinearOrder α] (ks : List α) (k : α) (t : Tree α)
    (h : buildTree ks = some t) :
    ∃ t', insertNode t k = some t' ∧ (∀ y, y ∈ keys t' ↔ y ∈ keys t ∨ y = k) ∧
      (k ∉ keys t → size t' = size t + 1) ∧ (k ∈ keys t → size t' = size t) := by
  obtain ⟨hb, ho, _⟩ := buildTree_props h
  obtain ⟨t', e, _, _, hk, hs, hi⟩ := insertNode_full t k hb ho
  exact ⟨t', e, hk, hs, fun hm => by rw [hi hm]⟩

/-- C3 at a concrete input: inserting 3 into the tree built from 2, 1. -/
theorem C3_insert_keys_witness :
    ∃ t', insertNode (node (node nil (1 : Int) nil) 2 nil) 3 = some t' ∧
      (∀ y, y ∈ keys t' ↔ y ∈ keys (node (node nil (1 : Int) nil) 2 nil) ∨ y = 3) ∧
      ((3 : Int) ∉ keys (node (node nil (1 : Int) nil) 2 nil) →
        size t' = size (node (node nil (1 : Int) nil) 2 nil) + 1) ∧
      ((3 : Int) ∈ keys (node (node nil (1 : Int) nil) 2 nil) →
        size t' = size (node (node nil (1 : Int) nil) 2 nil)) :=
  C3_insert_keys [2, 1] 3 (node (node nil 1 nil) 2 nil) (by decide)

/-- C4 (search finds exactly the stored keys).  On a tree in strict search-tree order,
`searchTree t k` prints a key (its report of success) if and only if `k` is stored in
`t`; it prints at most one key, and the key it prints is `k`. -/
theorem C4_search_finds_stored [LinearOrder α] (t : Tree α) (k : α) (ho : Ordered t) :
    (printed (searchTree t k) ≠ [] ↔ k ∈ keys t) ∧
      (printed (searchTree t k)).length ≤ 1 ∧
      (∀ y ∈ printed (searchTree t k), y = k) := by
  rw [printed_searchTree t k ho]
  by_cases hm : k ∈ keys t <;> simp [hm]

/-- C4 at a concrete input: searching 3 in the three-node tree 1, 2, 3. -/
theorem C4_search_finds_stored_witness :
    (printed (searchTree (node (node nil (1 : Int) nil) 2 (node nil 3 nil)) 3) ≠ [] ↔
        (3 : Int) ∈ keys (node (node nil (1 : Int) nil) 2 (node nil 3 nil))) ∧
      (printed (searchTree (node (node nil (1 : Int) nil) 2 (node nil 3 nil)) 3)).length ≤ 1 ∧
      (∀ y ∈ printed (searchTree (node (node nil (1 : Int) nil) 2 (node nil 3 nil)) 3),
        y = 3) :=
  C4_search_finds_stored (node (node nil 1 nil) 2 (node nil 3 nil)) 3
    (by simp [Ordered, keys])

/-- C5 (not-found is always reported) fails on the code.  The tree built from 50, 70 is in
strict order and does not store 10; `searchTree` for 10 enters the root, finds the left
child empty, and prints nothing, because the root has a right child. -/
theorem C5_search_miss_is_silent :
    buildTree ([50, 70] : List Int) = some (node nil 50 (node nil 70 nil)) ∧
      Ordered (node nil (50 : Int) (node nil 70 nil)) ∧
      (10 : Int) ∉ keys (node nil (50 : Int) (node nil 70 nil)) ∧
      searchTree (node nil (50 : Int) (node nil 70 nil)) 10 = [Event.call 50] ∧
      emptyReports (searchTree (node nil (50 : Int) (node nil 70 nil)) 10) = 0 := by
  refine ⟨by decide, by simp [Ordered, keys], by decide, by decide, by decide⟩

/-- C6 (duplicate insert is idempotent).  For a tree `t` built by successive `insertNode`
calls from the empty tree and any key `k`, inserting `k` a second time returns the tree
that the first insertion returned, and inserting a key that `t` stores returns `t`
itself.  Inserting 1, 1, 1 into the empty tree yields the single node 1, of height 1. -/
theorem C6_duplicate_insert_idempotent :
    (∀ (β : Type) [LinearOrder β] (ks : List β) (k : β) (t : Tree β),
        buildTree ks = some t →
        ∃ t', insertNode t k = some t' ∧ insertNode t' k = some t' ∧
          (k ∈ keys t → t' = t)) ∧
      buildTree ([1, 1, 1] : List Int) = some (node nil 1 nil) ∧
      calcHeight (node nil (1 : Int) nil) = 1 := by
  refine ⟨?_, by decide, by decide⟩
  intro β _ ks k t h
  obtain ⟨hb, ho, _⟩ := buildTree_props h
  obtain ⟨t', e, hb', ho', hk, _, hi⟩ := insertNode_full t k hb ho
  exact ⟨t', e, insertNode_of_mem t' k hb' ho' ((hk k).mpr (Or.inr rfl)), hi⟩

/-- C7 (tree and baseline agree on membership).  For every list of keys `ks` and every key
`k`: the tree built from `ks` by `insertNode` exists and `searchTree` prints a key on it
exactly when `k` occurs in `ks`; and for every table of tickers and dates whose key stream
is `ks`, and every assignment of addresses to the allocated `HeapNode`s, `addStocksToHeap`
(push, then `heapify`, for each key) returns a vector on which `searchHeap` prints a key
exactly when `k` occurs in `ks`, hence exactly when `searchTree` does.  Every key list is
the key stream of some table. -/
theorem C7_tree_and_heap_agree [LinearOrder α] (ks : List α) (k : α) :
    ∃ t, buildTree ks = some t ∧
      (printed (searchTree t k) ≠ [] ↔ k ∈ ks) ∧
      (∃ stocks : Stocks α, keyStream stocks = ks) ∧
      ∀ (alloc : Nat → Nat) (stocks : Stocks α), keyStream stocks = ks →
        ∃ heap, addStocksToHeap alloc stocks = Except.ok heap ∧
          (searchHeap heap k ≠ [] ↔ k ∈ ks) ∧
          (printed (searchTree t k) ≠ [] ↔ searchHeap heap k ≠ []) := by
  obtain ⟨t, e, _, ho, hk⟩ := buildTree_spec ks
  have ht : printed (searchTree t k) ≠ [] ↔ k ∈ ks := by
    rw [printed_searchTree t k ho, ← hk k]
    by_cases hm : k ∈ keys t <;> simp [hm]
  refine ⟨t, e, ht, ⟨[("", ks.map (fun y => ("", y)))], ?_⟩, ?_⟩
  · simp [keyStream, Function.comp_def]
  intro alloc stocks hs
  obtain ⟨heap, eh, hp⟩ := addStocksToHeap_spec alloc stocks
  have hh : searchHeap heap k ≠ [] ↔ k ∈ ks := by
    rw [searchHeap_spec, ← hs, ← hp.mem_iff]
    by_cases hm : k ∈ heap.map HeapNode.volatility <;> simp [hm]
  exact ⟨heap, eh, hh, ht.trans hh.symm⟩

/-- C8 (logarithmic height).  A tree built by successive `insertNode` calls from the empty
tree, with `n` nodes and height `h`, has `2 ^ h ≤ (n + 1) ^ 2`, that is
`h ≤ 2 * log₂ (n + 1)`, and `searchTree` enters at most `2 * log₂ (n + 1)` nodes of it. -/
theorem C8_logarithmic_height [LinearOrder α] (ks : List α) (t : Tree α)
    (h : buildTree ks = some t) :
    2 ^ calcHeight t ≤ (size t + 1) ^ 2 ∧
      (calcHeight t : ℝ) ≤ 2 * Real.logb 2 ((size t : ℝ) + 1) ∧
      ∀ k, ((visited (searchTree t k)).length : ℝ) ≤ 2 * Real.logb 2 ((size t : ℝ) + 1) := by
  obtain ⟨hb, _, _⟩ := buildTree_props h
  have hbound := balanced_height_bound t hb
  have hlog := le_two_logb_of_pow_le (calcHeight t) (size t) hbound
  refine ⟨hbound, hlog, fun k => le_trans ?_ hlog⟩
  exact_mod_cast visited_searchTree_le t k

/-- C8 at a concrete input: the tree built from 1, 2, 3. -/
theorem C8_logarithmic_height_witness :
    2 ^ calcHeight (node (node nil (1 : Int) nil) 2 (node nil 3 nil)) ≤
        (size (node (node nil (1 : Int) nil) 2 (node nil 3 nil)) + 1) ^ 2 ∧
      (calcHeight (node (node nil (1 : Int) nil) 2 (node nil 3 nil)) : ℝ) ≤
        2 * Real.logb 2 ((size (node (node nil (1 : Int) nil) 2 (node nil 3 nil)) : ℝ) + 1) ∧
      ∀ k, ((visited (searchTree (node (node nil (1 : Int) nil) 2 (node nil 3 nil)) k)).length
          : ℝ) ≤
        2 * Real.logb 2 ((size (node (node nil (1 : Int) nil) 2 (node nil 3 nil)) : ℝ) + 1) :=
  C8_logarithmic_height [1, 2, 3] (node (node nil 1 nil) 2 (node nil 3 nil)) (by decide)

/-- C9 (concrete scenario, shape).  Inserting 50, 30, 70, 20, 40, 60, 80, 10 in that order,
starting from the empty tree, produces the tree below: its root key is 50 and its
`calcHeight` is 4. -/
theorem C9_scenario_shape :
    buildTree ([50, 30, 70, 20, 40, 60, 80, 10] : List Int) =
        some (node
          (node (node (node nil 10 nil) 20 nil) 30 (node nil 40 nil))
          50
          (node (node nil 60 nil) 70 (node nil 80 nil))) ∧
      calcHeight (node
          (node (node (node nil (10 : Int) nil) 20 nil) 30 (node nil 40 nil))
          50
          (node (node nil 60 nil) 70 (node nil 80 nil))) = 4 := by
  exact ⟨by decide, by decide⟩

/-- C10 as stated fails: in the tree produced by inserting 50, 30, 70, 20, 40, 60, 80, 10
the root 50 has `balanceFactor` 1 (left height 3, right height 2), so it is not true that
`balanceFactor` is 0 at every node. -/
theorem C10_scenario_not_all_zero :
    ¬ ∀ t, buildTree ([50, 30, 70, 20, 40, 60, 80, 10] : List Int) = some t →
        ∀ n ∈ nodes t, balanceFactor n = 0 := by
  intro hall
  have h := hall
    (node (node (node (node nil 10 nil) 20 nil) 30 (node nil 40 nil)) 50
      (node (node nil 60 nil) 70 (node nil 80 nil)))
    (by decide)
    (node (node (node (node nil 10 nil) 20 nil) 30 (node nil 40 nil)) 50
      (node (node nil 60 nil) 70 (node nil 80 nil)))
    (by simp [nodes])
  revert h
  decide

/-- C10 amended (concrete scenario, balance factors).  In the tree produced by inserting
50, 30, 70, 20, 40, 60, 80, 10 the `balanceFactor` is 1 at the nodes 50, 30 and 20 and 0
at the nodes 10, 40, 70, 60 and 80; so it is -1, 0 or 1 at every node. -/
theorem C10_scenario_balance_factors :
    (buildTree ([50, 30, 70, 20, 40, 60, 80, 10] : List Int)).map balanceFactors =
      some [(50, 1), (30, 1), (20, 1), (10, 0), (40, 0), (70, 0), (60, 0), (80, 0)] := by
  decide

/-! ## Rotations and rebalancing on arbitrary trees -/

/-- No rotation inside `balanceTree` meets a missing child, on any tree: a node that is
too heavy on one side has a child there, and when that child does not lean outward its
inner child exists as well. -/
theorem balanceTree_total (t : Tree α) : ∃ p, balanceTree t = some p := by
  induction t with
  | nil => exact ⟨(nil, nil), rfl⟩
  | node l x r ihl ihr =>
    rw [balanceTree]
    by_cases h1 : balanceFactor (node l x r) > 1
    · rw [if_pos h1]
      rw [balanceFactor_node] at h1
      cases l with
      | nil => exfalso; simp only [calcHeight] at h1; omega
      | node a y b =>
        by_cases h2 : balanceFactor (node a y b) > 0
        · rw [if_pos h2]; exact ⟨_, rfl⟩
        · rw [if_neg h2]
          rw [balanceFactor_node] at h2
          rw [calcHeight_node] at h1
          cases b with
          | nil => exfalso; simp only [calcHeight] at h1 h2; omega
          | node b1 z b2 => exact ⟨_, rfl⟩
    · rw [if_neg h1]
      by_cases h3 : balanceFactor (node l x r) < -1
      · rw [if_pos h3]
        rw [balanceFactor_node] at h3
        cases r with
        | nil => exfalso; simp only [calcHeight] at h3; omega
        | node a y b =>
          by_cases h4 : balanceFactor (node a y b) < 0
          · rw [if_pos h4]; exact ⟨_, rfl⟩
          · rw [if_neg h4]
            rw [balanceFactor_node] at h4
            rw [calcHeight_node] at h3
            cases a with
            | nil => exfalso; simp only [calcHeight] at h3 h4; omega
            | node a1 z a2 => exact ⟨_, rfl⟩
      · rw [if_neg h3]
        obtain ⟨pl, el⟩ := ihl
        obtain ⟨pr, er⟩ := ihr
        rw [el, er]
        cases l <;> cases r <;> exact ⟨_, rfl⟩

theorem balanced_all_nodes {t : Tree α} (hb : Balanced t) (n : Tree α) (hn : n ∈ nodes t) :
    -1 ≤ balanceFactor n ∧ balanceFactor n ≤ 1 := by
  cases n with
  | nil => simp [balanceFactor]
  | node l x r => exact balanced_nodes hb l x r hn

/-! ## The source's insertion and the specification's insertion -/

theorem specRebalance_of_range (l : Tree α) (x : α) (r : Tree α)
    (h1 : -1 ≤ (calcHeight l : Int) - (calcHeight r : Int))
    (h2 : (calcHeight l : Int) - (calcHeight r : Int) ≤ 1) :
    specRebalance (node l x r) = node l x r := by
  have e1 : ¬ balanceFactor (node l x r) > 1 := by rw [balanceFactor_node]; omega
  have e2 : ¬ balanceFactor (node l x r) < -1 := by rw [balanceFactor_node]; omega
  rw [specRebalance, if_neg e1, if_neg e2]

/-- At a node whose children are balanced and whose balance factor is within -2..2, with
a heavy child that is not perfectly even, `balanceTree` returns what the specification's
`rebalance` returns. -/
theorem balanceTree_eq_specRebalance {l r : Tree α} (x : α) (hl : Balanced l)
    (hr : Balanced r)
    (hlo : -2 ≤ (calcHeight l : Int) - (calcHeight r : Int))
    (hhi : (calcHeight l : Int) - (calcHeight r : Int) ≤ 2)
    (h2 : (calcHeight l : Int) - (calcHeight r : Int) = 2 → balanceFactor l ≠ 0)
    (hm2 : (calcHeight l : Int) - (calcHeight r : Int) = -2 → balanceFactor r ≠ 0) :
    (balanceTree (node l x r)).map Prod.fst = some (specRebalance (node l x r)) := by
  by_cases e1 : balanceFactor (node l x r) > 1
  · have hb2 : (calcHeight l : Int) - (calcHeight r : Int) = 2 := by
      rw [balanceFactor_node] at e1; omega
    have h0 := h2 hb2
    cases l with
    | nil => exfalso; simp only [calcHeight] at hb2; omega
    | node a y b =>
      by_cases hpos : balanceFactor (node a y b) > 0
      · have hge : balanceFactor (node a y b) ≥ 0 := by omega
        rw [balanceTree, if_pos e1, if_pos hpos, specRebalance, if_pos e1, if_pos hge]
        rfl
      · have hge : ¬ balanceFactor (node a y b) ≥ 0 := by omega
        rw [balanceTree, if_pos e1, if_neg hpos, specRebalance, if_pos e1, if_neg hge]
        rw [balanceFactor_node] at hpos h0
        cases b with
        | nil => exfalso; simp only [calcHeight] at hpos h0; omega
        | node b1 z b2 => rfl
  · by_cases e2 : balanceFactor (node l x r) < -1
    · have hb2 : (calcHeight l : Int) - (calcHeight r : Int) = -2 := by
        rw [balanceFactor_node] at e2; omega
      have h0 := hm2 hb2
      cases r with
      | nil => exfalso; simp only [calcHeight] at hb2; omega
      | node a y b =>
        by_cases hneg : balanceFactor (node a y b) < 0
        · have hle : balanceFactor (node a y b) ≤ 0 := by omega
          rw [balanceTree, if_neg e1, if_pos e2, if_pos hneg, specRebalance, if_neg e1,
            if_pos e2, if_pos hle]
          rfl
        · have hle : ¬ balanceFactor (node a y b) ≤ 0 := by omega
          rw [balanceTree, if_neg e1, if_pos e2, if_neg hneg, specRebalance, if_neg e1,
            if_pos e2, if_neg hle]
          rw [balanceFactor_node] at hneg h0
          cases a with
          | nil => exfalso; simp only [calcHeight] at hneg h0; omega
          | node a1 z a2 => rfl
    · rw [balanceFactor_node] at e1 e2
      have hbn : Balanced (node l x r) := ⟨hl, hr, by omega, by omega⟩
      rw [balanceTree_of_balanced hbn, specRebalance_of_range l x r (by omega) (by omega)]
      rfl

/-- On a tree balanced at every node, `insertNode` returns the tree that the
specification's insertion returns. -/
theorem insertNode_eq_specInsert [LinearOrder α] (t : Tree α) (v : α) (hb : Balanced t) :
    insertNode t v = some (specInsert t v) := by
  induction t with
  | nil => rw [insertNode, insertFresh_eq]; rfl
  | node l x r ihl ihr =>
    obtain ⟨hl, hr, h1, h2⟩ := hb
    rcases lt_trichotomy v x with hvx | hvx | hvx
    · cases hl0 : l with
      | nil =>
        subst hl0
        have e : specInsert (node nil x r) v = node (node nil v nil) x r := by
          rw [specInsert, if_pos hvx]
          simp only [specInsert]
          apply specRebalance_of_range <;> simp only [calcHeight] at * <;> omega
        rw [e]
        simp [insertNode, Tree.isNode, hvx, not_lt_of_gt hvx, createNode]
      | node la lx lb =>
        obtain ⟨l', el, hbl', _, hgl⟩ := insertNode_spec l v hl
        have el' := ihl hl
        rw [el] at el'
        have hl' : l' = specInsert l v := Option.some.inj el'
        rw [hl0] at el hgl h1 h2 hl'
        have hnode : node la lx lb ≠ nil := by simp
        rw [insertNode, if_pos ⟨rfl, hvx⟩, el, specInsert, if_pos hvx, ← hl']
        show (balanceTree (node l' x r)).map Prod.fst = _
        apply balanceTree_eq_specRebalance x hbl' hr
        · omega
        · omega
        · intro hb2
          rcases hgl with hg | ⟨_, hg | hg⟩
          · omega
          · exact absurd hg hnode
          · exact hg
        · intro hb2; omega
    · subst hvx
      simp [insertNode, specInsert]
    · have hnl : ¬ v < x := not_lt_of_gt hvx
      cases hr0 : r with
      | nil =>
        subst hr0
        have e : specInsert (node l x nil) v = node l x (node nil v nil) := by
          rw [specInsert, if_neg hnl, if_pos hvx]
          simp only [specInsert]
          apply specRebalance_of_range <;> simp only [calcHeight] at * <;> omega
        rw [e]
        simp [insertNode, Tree.isNode, hvx, hnl, createNode]
      | node ra rx rb =>
        obtain ⟨r', er, hbr', _, hgr⟩ := insertNode_spec r v hr
        have er' := ihr hr
        rw [er] at er'
        have hr' : r' = specInsert r v := Option.some.inj er'
        rw [hr0] at er hgr h1 h2 hr'
        have hnode : node ra rx rb ≠ nil := by simp
        rw [insertNode, if_neg (fun h => hnl h.2), if_pos ⟨rfl, hvx⟩, er, specInsert,
          if_neg hnl, if_pos hvx, ← hr']
        show (balanceTree (node l x r')).map Prod.fst = _
        apply balanceTree_eq_specRebalance x hl hbr'
        · omega
        · omega
        · intro hb2; omega
        · intro hb2
          rcases hgr with hg | ⟨_, hg | hg⟩
          · omega
          · exact absurd hg hnode
          · exact hg

/-! ## The build and query phases of `main` -/

theorem treeKeyStream_eq [LinearOrderedRing α] (stocks : Stocks α) :
    treeKeyStream stocks = (keyStream stocks).map clampVolatility := by
  induction stocks with
  | nil => rfl
  | cons s rest ih =>
    simp only [treeKeyStream, keyStream, List.flatMap_cons, List.map_append, List.map_map] at ih ⊢
    rw [ih]
    rfl

theorem clampVolatility_of_range [LinearOrderedRing α] (v : α)
    (h : ¬ (v > 10 ^ 10 ∨ v < -(10 ^ 10))) : clampVolatility v = v := by
  rw [clampVolatility, if_neg h]

/-- The loop of the BUY branch makes no iteration: it starts at `begin()` and runs while
the iterator differs from `begin()`. -/
theorem buyTarget_eq_first [LinearOrder α] (entries : List (String × α)) :
    buyTarget entries = entries.head?.map Prod.snd := by
  cases entries with
  | nil => rfl
  | cons e rest => simp [buyTarget, buyLoop]

/-- The loop of the SELL branch makes no iteration either. -/
theorem sellTarget_eq_first [LinearOrder α] (entries : List (String × α)) :
    sellTarget entries = entries.head?.map Prod.snd := by
  cases entries with
  | nil => rfl
  | cons e rest => simp [sellTarget, sellLoop]

theorem rotations_defined_left (l : Tree α) (x : α) (r : Tree α)
    (h1 : balanceFactor (node l x r) > 1) :
    (∃ p, rightRotate (node l x r) = some p) ∧
      (¬ balanceFactor l > 0 →
        ∃ q, leftRotate l = some q ∧ ∃ p, rightRotate (node q.1 x r) = some p) := by
  rw [balanceFactor_node] at h1
  cases l with
  | nil => exfalso; simp only [calcHeight] at h1; omega
  | node a y b =>
    refine ⟨⟨_, rfl⟩, fun h2 => ?_⟩
    rw [balanceFactor_node] at h2
    rw [calcHeight_node] at h1
    cases b with
    | nil => exfalso; simp only [calcHeight] at h1 h2; omega
    | node b1 z b2 => exact ⟨_, rfl, _, rfl⟩

theorem rotations_defined_right (l : Tree α) (x : α) (r : Tree α)
    (h1 : balanceFactor (node l x r) < -1) :
    (∃ p, leftRotate (node l x r) = some p) ∧
      (¬ balanceFactor r < 0 →
        ∃ q, rightRotate r = some q ∧ ∃ p, leftRotate (node l x q.1) = some p) := by
  rw [balanceFactor_node] at h1
  cases r with
  | nil => exfalso; simp only [calcHeight] at h1; omega
  | node a y b =>
    refine ⟨⟨_, rfl⟩, fun h2 => ?_⟩
    rw [balanceFactor_node] at h2
    rw [calcHeight_node] at h1
    cases a with
    | nil => exfalso; simp only [calcHeight] at h1 h2; omega
    | node a1 z a2 => exact ⟨_, rfl, _, rfl⟩

/-! ## Properties of the specification, continued -/

/-- C11 (concrete scenario, search paths).  On the tree produced by inserting
50, 30, 70, 20, 40, 60, 80, 10 in that order, `searchTree` for 10 enters the nodes
50, 30, 20, 10 in that order and prints the key; `searchTree` for 99 enters the nodes
50, 70, 80 in that order, does not recurse because the right child of 80 is empty, and
prints `Tree is empty`. -/
theorem C11_scenario_search_paths :
    (buildTree ([50, 30, 70, 20, 40, 60, 80, 10] : List Int)).map (fun t => searchTree t 10) =
        some [Event.call 50, Event.call 30, Event.call 20, Event.call 10, Event.printKey 10] ∧
      (buildTree ([50, 30, 70, 20, 40, 60, 80, 10] : List Int)).map (fun t => searchTree t 99) =
        some [Event.call 50, Event.call 70, Event.call 80, Event.printEmpty] := by
  exact ⟨by decide, by decide⟩

/-- C12 (single rotations preserve the in-order key sequence).  A node whose right child
is non-empty has the form `node a x (node b y c)`: `leftRotate` succeeds on it and the
tree at the returned root has the same in-order key sequence, hence is strictly ordered
if the node was.  The same for `rightRotate` on `node (node a x b) y c`. -/
theorem C12_rotations_keep_key_sequence [LinearOrder α] (a : Tree α) (x : α) (b : Tree α)
    (y : α) (c : Tree α) :
    (∃ p, leftRotate (node a x (node b y c)) = some p ∧
        keys p.1 = keys (node a x (node b y c)) ∧
        (Ordered (node a x (node b y c)) → Ordered p.1)) ∧
      (∃ p, rightRotate (node (node a x b) y c) = some p ∧
        keys p.1 = keys (node (node a x b) y c) ∧
        (Ordered (node (node a x b) y c) → Ordered p.1)) := by
  have k1 : keys (node (node a x b) y c) = keys (node a x (node b y c)) := by simp [keys]
  refine ⟨⟨_, rfl, k1, fun h => ?_⟩, ⟨_, rfl, k1.symm, fun h => ?_⟩⟩
  · rw [ordered_iff_pairwise] at h ⊢
    rw [k1]; exact h
  · rw [ordered_iff_pairwise] at h ⊢
    rw [← k1]; exact h

/-- C13 as stated fails: the node 4 with left child 2 (children 1 and 3) and no right
child has `balanceFactor` 2 and a left child of `balanceFactor` 0, which is non-negative,
yet `balanceTree` does not return the single right rotation (root 2); it rotates the left
child to the left and then the node to the right (root 3). -/
theorem C13_zero_child_gets_double_rotation :
    balanceFactor (node (node (node nil (1 : Int) nil) 2 (node nil 3 nil)) 4 nil) > 1 ∧
      balanceFactor (node (node nil (1 : Int) nil) 2 (node nil 3 nil)) ≥ 0 ∧
      balanceTree (node (node (node nil (1 : Int) nil) 2 (node nil 3 nil)) 4 nil) ≠
        rightRotate (node (node (node nil (1 : Int) nil) 2 (node nil 3 nil)) 4 nil) ∧
      (balanceTree (node (node (node nil (1 : Int) nil) 2 (node nil 3 nil)) 4 nil)).map
          Prod.fst =
        some (node (node (node nil 1 nil) 2 nil) 3 (node nil 4 nil)) ∧
      (rightRotate (node (node (node nil (1 : Int) nil) 2 (node nil 3 nil)) 4 nil)).map
          Prod.fst =
        some (node (node nil 1 nil) 2 (node (node nil 3 nil) 4 nil)) := by
  refine ⟨by decide, by decide, by decide, by decide, by decide⟩

/-- C13 amended (rebalance case selection).  At a node whose `balanceFactor` exceeds +1,
`balanceTree` is the single right rotation when the left child's `balanceFactor` is
positive, and otherwise (zero or negative) `leftRotate` on the left child followed by
`rightRotate` on the node.  At a node whose `balanceFactor` is below -1 it is the single
left rotation when the right child's `balanceFactor` is negative, and otherwise
`rightRotate` on the right child followed by `leftRotate` on the node. -/
theorem C13_rebalance_case_selection (l : Tree α) (x : α) (r : Tree α) :
    (balanceFactor (node l x r) > 1 →
      (balanceFactor l > 0 → balanceTree (node l x r) = rightRotate (node l x r)) ∧
      (¬ balanceFactor l > 0 →
        balanceTree (node l x r) =
          (leftRotate l).bind (fun l' => rightRotate (node l'.1 x r)))) ∧
    (balanceFactor (node l x r) < -1 →
      (balanceFactor r < 0 → balanceTree (node l x r) = leftRotate (node l x r)) ∧
      (¬ balanceFactor r < 0 →
        balanceTree (node l x r) =
          (rightRotate r).bind (fun r' => leftRotate (node l x r'.1)))) := by
  refine ⟨fun h1 => ⟨fun h2 => ?_, fun h2 => ?_⟩, fun h1 => ?_⟩
  · rw [balanceTree, if_pos h1, if_pos h2]
  · rw [balanceTree, if_pos h1, if_neg h2]
    cases leftRotate l <;> rfl
  · have e1 : ¬ balanceFactor (node l x r) > 1 := by omega
    refine ⟨fun h2 => ?_, fun h2 => ?_⟩
    · rw [balanceTree, if_neg e1, if_pos h1, if_pos h2]
    · rw [balanceTree, if_neg e1, if_pos h1, if_neg h2]
      cases rightRotate r <;> rfl

/-- C13 amended, at concrete inputs: the left chain 3, 2, 1 gets the single right
rotation, and the node 4 over the even child 2 gets the double rotation. -/
theorem C13_rebalance_case_selection_witness :
    balanceTree (node (node (node nil (1 : Int) nil) 2 nil) 3 nil) =
        rightRotate (node (node (node nil (1 : Int) nil) 2 nil) 3 nil) ∧
      balanceTree (node (node (node nil (1 : Int) nil) 2 (node nil 3 nil)) 4 nil) =
        (leftRotate (node (node nil (1 : Int) nil) 2 (node nil 3 nil))).bind
          (fun l' => rightRotate (node l'.1 4 nil)) :=
  ⟨((C13_rebalance_case_selection (node (node nil (1 : Int) nil) 2 nil) 3 nil).1
      (by decide)).1 (by decide),
    ((C13_rebalance_case_selection (node (node nil (1 : Int) nil) 2 (node nil 3 nil)) 4 nil).1
      (by decide)).2 (by decide)⟩

/-- C14 (rotation correctness).  On a strictly ordered tree whose root has
`balanceFactor` +2 or -2, whose two subtrees are balanced at every node, and whose child
on the heavy side has `balanceFactor` +1 or -1, `balanceTree` returns a tree with the same
in-order key sequence, strictly ordered, with `balanceFactor` between -1 and 1 at every
node.  The four three-node shapes (3, 2, 1 left chain; 3, 1, 2 left-right; 1, 2, 3 right
chain; 1, 3, 2 right-left) all become the tree with root 2 and children 1 and 3. -/
theorem C14_rotation_correctness :
    (∀ (β : Type) [LinearOrder β] (l : Tree β) (x : β) (r : Tree β),
        Ordered (node l x r) → Balanced l → Balanced r →
        ((balanceFactor (node l x r) = 2 ∧ (balanceFactor l = 1 ∨ balanceFactor l = -1)) ∨
          (balanceFactor (node l x r) = -2 ∧
            (balanceFactor r = 1 ∨ balanceFactor r = -1))) →
        ∃ t u, balanceTree (node l x r) = some (t, u) ∧
          keys t = keys (node l x r) ∧ Ordered t ∧ (keys t).Pairwise (· < ·) ∧
          ∀ n ∈ nodes t, -1 ≤ balanceFactor n ∧ balanceFactor n ≤ 1) ∧
      (balanceTree (node (node (node nil (1 : Int) nil) 2 nil) 3 nil)).map Prod.fst =
        some (node (node nil 1 nil) 2 (node nil 3 nil)) ∧
      (balanceTree (node (node nil (1 : Int) (node nil 2 nil)) 3 nil)).map Prod.fst =
        some (node (node nil 1 nil) 2 (node nil 3 nil)) ∧
      (balanceTree (node nil (1 : Int) (node nil 2 (node nil 3 nil)))).map Prod.fst =
        some (node (node nil 1 nil) 2 (node nil 3 nil)) ∧
      (balanceTree (node nil (1 : Int) (node (node nil 2 nil) 3 nil))).map Prod.fst =
        some (node (node nil 1 nil) 2 (node nil 3 nil)) := by
  refine ⟨?_, by decide, by decide, by decide, by decide⟩
  intro β _ l x r ho hl hr hcase
  have key : ∃ t u, balanceTree (node l x r) = some (t, u) ∧ Balanced t ∧
      keys t = keys l ++ x :: keys r := by
    rcases hcase with ⟨h2, h0⟩ | ⟨h2, h0⟩
    · rw [balanceFactor_node] at h2
      obtain ⟨t, u, e, hb, hk, _⟩ := balanceTree_heavy_left x hl hr h2 (by omega)
      exact ⟨t, u, e, hb, hk⟩
    · rw [balanceFactor_node] at h2
      obtain ⟨t, u, e, hb, hk, _⟩ := balanceTree_heavy_right x hl hr h2 (by omega)
      exact ⟨t, u, e, hb, hk⟩
  obtain ⟨t, u, e, hb, hk⟩ := key
  have hp : (keys t).Pairwise (· < ·) := by
    rw [hk]; exact (ordered_iff_pairwise (node l x r)).mp ho
  exact ⟨t, u, e, hk, (ordered_iff_pairwise t).mpr hp, hp, fun n hn => balanced_all_nodes hb n hn⟩

/-- C15 (rebalancing preserves the key sequence on every tree) fails on the code.  In the
tree below the root 4 has `balanceFactor` 1, so `balanceTree` walks into the children; the
call on the left child 3 (a left chain 3, 2, 1) rotates it to the right in place, and the
new subtree root 2 that the call returns is discarded: `root->left` still points at the
node 3, whose left child is now empty.  The keys 1 and 2 are no longer reachable from the
returned root. -/
theorem C15_discarded_result_drops_keys :
    keys (node (node (node (node nil (1 : Int) nil) 2 nil) 3 nil) 4
        (node nil 5 (node nil 6 nil))) = [1, 2, 3, 4, 5, 6] ∧
      (balanceTree (node (node (node (node nil (1 : Int) nil) 2 nil) 3 nil) 4
        (node nil 5 (node nil 6 nil)))).map Prod.fst =
        some (node (node nil 3 nil) 4 (node nil 5 (node nil 6 nil))) ∧
      (balanceTree (node (node (node (node nil (1 : Int) nil) 2 nil) 3 nil) 4
        (node nil 5 (node nil 6 nil)))).map (fun p => keys p.1) = some [3, 4, 5, 6] := by
  refine ⟨by decide, by decide, by decide⟩

/-- C16 (the source's insert agrees with insertion-path-only rebalancing).  For a tree `t`
built by successive `insertNode` calls from the empty tree and any key `k`,
`insertNode t k` returns exactly the tree that the specification's insertion returns:
walk down by search-tree order, discard a tie, and on the way back rebalance at each
ancestor only. -/
theorem C16_insert_refines_spec [LinearOrder α] (ks : List α) (k : α) (t : Tree α)
    (h : buildTree ks = some t) : insertNode t k = some (specInsert t k) :=
  insertNode_eq_specInsert t k (buildTree_props h).1

/-- C16 at a concrete input: inserting 1 into the tree built from 3, 2, which rotates. -/
theorem C16_insert_refines_spec_witness :
    insertNode (node (node nil (2 : Int) nil) 3 nil) 1 =
      some (specInsert (node (node nil (2 : Int) nil) 3 nil) 1) :=
  C16_insert_refines_spec [3, 2] 1 (node (node nil 2 nil) 3 nil) (by decide)

/-- C17 as stated fails: for the one-entry table with the volatility 20000000000 the
baseline vector stores 20000000000, while the tree-build loop of `main` replaces the value
by 0 before it calls `insertNode`; the two multisets differ. -/
theorem C17_guard_changes_tree_keys :
    ∃ heap, addStocksToHeap (fun n => n) [("A", [("2013-02-08", (20000000000 : Int))])]
        = Except.ok heap ∧
      heap.map HeapNode.volatility = [20000000000] ∧
      treeKeyStream [("A", [("2013-02-08", (20000000000 : Int))])] = [0] ∧
      ¬ (treeKeyStream [("A", [("2013-02-08", (20000000000 : Int))])]).Perm
          (heap.map HeapNode.volatility) := by
  refine ⟨[{ addr := 0, volatility := 20000000000, name := "A", date := "2013-02-08" }],
    rfl, rfl, by decide, ?_⟩
  have e : treeKeyStream [("A", [("2013-02-08", (20000000000 : Int))])] = [0] := by decide
  rw [e]
  decide

/-- C17 amended (build phase).  For every table of per-ticker maps and every assignment of
addresses, `addStocksToHeap` returns a vector, and the multiset of keys that the
tree-build loop hands to `insertNode` is the multiset of the vector's volatilities after
every value above 1E10 or below -1E10 is replaced by 0; when no value of the maps is
beyond 1E10 in magnitude the two multisets are equal. -/
theorem C17_build_feeds_guarded_keys [LinearOrderedRing α] (alloc : Nat → Nat)
    (stocks : Stocks α) :
    ∃ heap, addStocksToHeap alloc stocks = Except.ok heap ∧
      (treeKeyStream stocks).Perm ((heap.map HeapNode.volatility).map clampVolatility) ∧
      ((∀ v ∈ keyStream stocks, ¬ (v > 10 ^ 10 ∨ v < -(10 ^ 10))) →
        (treeKeyStream stocks).Perm (heap.map HeapNode.volatility)) := by
  obtain ⟨heap, e, hp⟩ := addStocksToHeap_spec alloc stocks
  refine ⟨heap, e, ?_, fun hr => ?_⟩
  · rw [treeKeyStream_eq]
    exact (hp.map clampVolatility).symm
  · rw [treeKeyStream_eq]
    have hid : (keyStream stocks).map clampVolatility = keyStream stocks := by
      conv_rhs => rw [← List.map_id (keyStream stocks)]
      exact List.map_congr_left (fun v hv => clampVolatility_of_range v (hr v hv))
    rw [hid]
    exact hp.symm

/-- C18 (query target selection) fails on the code.  The loops of the BUY and SELL
branches start at `map.begin()` and run while the iterator differs from `map.begin()`, so
they make no iteration and the key searched for is the value of the first entry of the
ticker's map, for every map.  For the map with the values 1 then 5 the BUY target is 1,
not the maximum 5; for the map with the values 5 then 1 the SELL target is 5, not the
minimum 1. -/
theorem C18_target_is_first_entry :
    (∀ (β : Type) [LinearOrder β] (entries : List (String × β)),
        buyTarget entries = entries.head?.map Prod.snd ∧
        sellTarget entries = entries.head?.map Prod.snd) ∧
      buyTarget [("2013-02-08", (1 : Int)), ("2013-02-11", 5)] = some 1 ∧
      sellTarget [("2013-02-08", (5 : Int)), ("2013-02-11", 1)] = some 5 := by
  refine ⟨fun β _ entries => ⟨buyTarget_eq_first entries, sellTarget_eq_first entries⟩,
    by decide, by decide⟩

/-- C19 (rotations inside `balanceTree` never meet an empty child).  On every tree
`balanceTree` returns a result: no rotation it runs, at the root or in the walk below it,
is a rotation on a missing child.  At a node that is too heavy on the left,
`rightRotate` is defined on it, and when the left child's `balanceFactor` is not positive
(zero included) the inner `leftRotate` on the left child and the outer `rightRotate`
are defined; symmetrically on the right. -/
theorem C19_rotations_never_meet_null (t : Tree α) :
    (∃ p, balanceTree t = some p) ∧
      ∀ l x r, node l x r ∈ nodes t →
        (balanceFactor (node l x r) > 1 →
          (∃ p, rightRotate (node l x r) = some p) ∧
          (¬ balanceFactor l > 0 →
            ∃ q, leftRotate l = some q ∧ ∃ p, rightRotate (node q.1 x r) = some p)) ∧
        (balanceFactor (node l x r) < -1 →
          (∃ p, leftRotate (node l x r) = some p) ∧
          (¬ balanceFactor r < 0 →
            ∃ q, rightRotate r = some q ∧ ∃ p, leftRotate (node l x q.1) = some p)) :=
  ⟨balanceTree_total t, fun l x r _ =>
    ⟨rotations_defined_left l x r, rotations_defined_right l x r⟩⟩

/-- C20 (`heapify` terminates and only permutes).  On a non-empty vector, whatever the
addresses of its entries, the loop of `heapify` stops within its fuel, reads no index
outside the vector (it writes only the two indices it has read), and returns a
permutation of the vector of the same length; `searchHeap` prints the same on the
returned vector as on the argument, for every key. -/
theorem C20_heapify_permutes [DecidableEq α] (nodes : List (HeapNode α)) (hne : nodes ≠ []) :
    ∃ out, heapify nodes = Except.ok out ∧ out.Perm nodes ∧ out.length = nodes.length ∧
      ∀ k, searchHeap out k = searchHeap nodes k := by
  obtain ⟨out, e, hp⟩ := heapify_spec nodes hne
  refine ⟨out, e, hp, hp.length_eq, fun k => ?_⟩
  rw [searchHeap_spec, searchHeap_spec]
  have hm : k ∈ out.map HeapNode.volatility ↔ k ∈ nodes.map HeapNode.volatility :=
    (hp.map HeapNode.volatility).mem_iff
  by_cases h : k ∈ nodes.map HeapNode.volatility
  · rw [if_pos h, if_pos (hm.mpr h)]
  · rw [if_neg h, if_neg (fun h' => h (hm.mp h'))]

/-- C20 at a concrete input: a two-entry vector whose second entry has the higher address,
so that the loop exchanges the two entries. -/
theorem C20_heapify_permutes_witness :
    ∃ out, heapify [({ addr := 1, volatility := 5, name := "A", date := "d1" } : HeapNode Int),
          { addr := 2, volatility := 7, name := "A", date := "d2" }] = Except.ok out ∧
      out.Perm [({ addr := 1, volatility := 5, name := "A", date := "d1" } : HeapNode Int),
          { addr := 2, volatility := 7, name := "A", date := "d2" }] ∧
      out.length = [({ addr := 1, volatility := 5, name := "A", date := "d1" } : HeapNode Int),
          { addr := 2, volatility := 7, name := "A", date := "d2" }].length ∧
      ∀ k, searchHeap out k =
        searchHeap [({ addr := 1, volatility := 5, name := "A", date := "d1" } : HeapNode Int),
          { addr := 2, volatility := 7, name := "A", date := "d2" }] k :=
  C20_heapify_permutes _ (by simp)

end Src
